import Mathlib

/-!
Shallow embedding of the binning / histogram-transform engine of the
`pisa` repository, centred on the CUDA kernel embedded in
`pisa/devel/hist.py` (`GetBin`, `Hist2D`, `GPUhist.clear`,
`GPUhist.get_hist`) and the transform stage `pisa/stages/utils/hist.py`
(`hist.setup_function`, `hist.apply_function`).

Scalar values (the CUDA `fType`, i.e. float64) are modelled as rationals:
every construct of the engine uses only ordering comparisons, addition and
multiplication, so the control flow on representable doubles coincides
with the control flow on the corresponding rationals, and the
"within floating-point tolerance" equalities of the specification become
exact equalities over `ℚ`.

Device buffers are modelled as total functions (`ℕ → ℚ` for the event and
edge arrays, `ℤ → ℚ` for the flat histogram buffer, indexed by the signed
flat index the kernel computes).
-/

namespace Pisa

/-- Loop body of the CUDA device function `GetBin` (pisa/devel/hist.py,
lines 30-50): binary search over `bin_edges` for the bin of `x`.
State: `first`, `last` are the C `int` search bounds, `bin` records the
value last assigned to the C local `bin` (`none` models the uninitialised
local before the first iteration).  The `fuel` argument only bounds the
number of iterations; each iteration strictly shrinks `last - first`, so
any `fuel` larger than the initial `last - first + 1` never runs out and
the function agrees with the unbounded C `while` loop. -/
def getBinLoop (x : ℚ) (n_bins : ℕ) (bin_edges : ℕ → ℚ) :
    ℕ → ℤ → ℤ → Option ℤ → Option ℤ
  | 0, _, _, bin => bin
  | fuel + 1, first, last, bin =>
    if first ≤ last then
      let b := (first + last) / 2
      if bin_edges b.toNat ≤ x then
        if x < bin_edges (b.toNat + 1) ∨
            (x ≤ bin_edges n_bins ∧ b = (n_bins : ℤ) - 1) then
          some b
        else
          getBinLoop x n_bins bin_edges fuel (b + 1) last (some b)
      else
        getBinLoop x n_bins bin_edges fuel first (b - 1) (some b)
    else
      bin

/-- The CUDA device function `GetBin(x, n_bins, bin_edges)`: binary search
with `first = 0`, `last = n_bins - 1`; returns the C local `bin`
(uninitialised, i.e. `none`, when the loop never ran). -/
def GetBin (x : ℚ) (n_bins : ℕ) (bin_edges : ℕ → ℚ) : Option ℤ :=
  getBinLoop x n_bins bin_edges (n_bins + 1) 0 ((n_bins : ℤ) - 1) none

/-- Example edges 0,1,2,3 as a buffer. -/
def exEdges : ℕ → ℚ := fun i => ([0, 1, 2, 3] : List ℚ).getD i 0

example : GetBin (3 : ℚ) 3 exEdges = some 2 := by decide
example : GetBin (1 : ℚ) 3 exEdges = some 1 := by decide
example : GetBin (0 : ℚ) 3 exEdges = some 0 := by decide

/-- Device memory visible to the `Hist2D` kernel: the event coordinate
buffers `X`, `Y`, the weight buffer `W`, the two bin-edge buffers, and the
flat histogram buffer `hist` (the kernel indexes it with the signed
expression `bin_y + bin_x * n_bins_y`, so it is indexed by `ℤ`). -/
@[ext]
structure DeviceMem where
  X : ℕ → ℚ
  Y : ℕ → ℚ
  W : ℕ → ℚ
  bin_edges_x : ℕ → ℚ
  bin_edges_y : ℕ → ℚ
  hist : ℤ → ℚ

/-- The single update a `Hist2D` thread issues to shared memory:
`atomicAdd(&hist[b], w)`.  The fetch-and-add reads and writes the cell in
one indivisible step. -/
def atomicAdd (hist : ℤ → ℚ) (b : ℤ) (w : ℚ) : ℤ → ℚ :=
  Function.update hist b (hist b + w)

/-- What the kernel thread with flat index `idx` contributes, computed
from the read-only buffers exactly as in `Hist2D`
(pisa/devel/hist.py, lines 52-65): `none` when `idx ≥ n_evts`, when the
event is out of range in either dimension, or (never reached for
`n_bins ≥ 1`) when `GetBin` returns its uninitialised local; otherwise
the pair (flat bin `bin_y + bin_x * n_bins_y`, weight `W[idx]`). -/
def hist2DthreadOp (n_evts n_bins_x n_bins_y : ℕ)
    (X Y W bin_edges_x bin_edges_y : ℕ → ℚ) (idx : ℕ) : Option (ℤ × ℚ) :=
  if idx < n_evts then
    let x := X idx
    let y := Y idx
    if bin_edges_x 0 ≤ x ∧ x ≤ bin_edges_x n_bins_x ∧
        bin_edges_y 0 ≤ y ∧ y ≤ bin_edges_y n_bins_y then
      match GetBin x n_bins_x bin_edges_x, GetBin y n_bins_y bin_edges_y with
      | some bin_x, some bin_y => some (bin_y + bin_x * (n_bins_y : ℤ), W idx)
      | _, _ => none
    else none
  else none

/-- Memory effect of an optional atomic update: a thread that computed
`some (b, w)` issues `atomicAdd(&hist[b], w)`; a thread that computed
`none` does not touch memory. -/
def applyOp (m : DeviceMem) : Option (ℤ × ℚ) → DeviceMem
  | some p => { m with hist := atomicAdd m.hist p.1 p.2 }
  | none => m

/-- One kernel thread acting on device memory: it reads the event and
edge buffers, and its only write is the single `atomicAdd` into `hist`. -/
def hist2Dthread (n_evts n_bins_x n_bins_y : ℕ) (m : DeviceMem) (idx : ℕ) :
    DeviceMem :=
  applyOp m (hist2DthreadOp n_evts n_bins_x n_bins_y
    m.X m.Y m.W m.bin_edges_x m.bin_edges_y idx)

/-- Execution of the kernel threads listed in `l`, in that order.  Because
each thread performs exactly one atomic fetch-and-add, any interleaving of
the threads is equivalent to executing their updates in some sequential
order, i.e. to `execThreads` on some permutation of the thread list. -/
def execThreads (n_evts n_bins_x n_bins_y : ℕ) (l : List ℕ) (m : DeviceMem) :
    DeviceMem :=
  l.foldl (hist2Dthread n_evts n_bins_x n_bins_y) m

/-- Block size used by `GPUhist.get_hist`: `bdim = (256,1,1)`. -/
def blockSize : ℕ := 256

/-- Grid x-dimension from `GPUhist.get_hist`:
`dx, mx = divmod(n_evts, 256); gdim = ((dx + (mx>0)) * 256, 1)`. -/
def gridDimX (n_evts : ℕ) : ℕ :=
  (n_evts / blockSize + (if n_evts % blockSize > 0 then 1 else 0)) * blockSize

/-- Total number of launched kernel threads: grid x-dimension times the
block size (each thread computes `idx = threadIdx.x + blockDim.x * blockIdx.x`). -/
def totalThreads (n_evts : ℕ) : ℕ :=
  gridDimX n_evts * blockSize

/-- One full `Hist2D` kernel launch over all launched threads. -/
def launchHist2D (n_evts n_bins_x n_bins_y : ℕ) (m : DeviceMem) : DeviceMem :=
  execThreads n_evts n_bins_x n_bins_y (List.range (totalThreads n_evts)) m

namespace GPUhist

/-- The reset `GPUhist.clear` (pisa/devel/hist.py, lines 71-74): the
device-resident histogram is overwritten with zeros; no other buffer is
touched. -/
def clear (m : DeviceMem) : DeviceMem :=
  { m with hist := fun _ => 0 }

/-- The host-side driver `GPUhist.get_hist` (pisa/devel/hist.py, lines
76-85): reset the device histogram with `clear`, launch the `Hist2D`
kernel over the grid, and read the result back.  Returns the final device
memory and the histogram pulled back to the host. -/
def get_hist (m : DeviceMem) (n_evts n_bins_x n_bins_y : ℕ) :
    DeviceMem × (ℤ → ℚ) :=
  let m1 := clear m
  let m2 := launchHist2D n_evts n_bins_x n_bins_y m1
  (m2, m2.hist)

end GPUhist

/-- The engine's `accumulate(sample, weights, binning)` entry point, as
realised by `GPUhist.get_hist` on freshly uploaded buffers: the flat
histogram obtained from a kernel launch over the given sample. -/
def accumulate (n_evts n_bins_x n_bins_y : ℕ)
    (X Y W bin_edges_x bin_edges_y : ℕ → ℚ) : ℤ → ℚ :=
  (GPUhist.get_hist ⟨X, Y, W, bin_edges_x, bin_edges_y, fun _ => 0⟩
    n_evts n_bins_x n_bins_y).2

/-- The in-range test the kernel applies to event `idx` before binning it
(out-of-range events are silently dropped). -/
def eventInRange (n_bins_x n_bins_y : ℕ)
    (X Y bin_edges_x bin_edges_y : ℕ → ℚ) (idx : ℕ) : Prop :=
  bin_edges_x 0 ≤ X idx ∧ X idx ≤ bin_edges_x n_bins_x ∧
    bin_edges_y 0 ≤ Y idx ∧ Y idx ≤ bin_edges_y n_bins_y

instance (n_bins_x n_bins_y : ℕ) (X Y bin_edges_x bin_edges_y : ℕ → ℚ)
    (idx : ℕ) :
    Decidable (eventInRange n_bins_x n_bins_y X Y bin_edges_x bin_edges_y idx) := by
  unfold eventInRange; infer_instance

/-- Weight that thread `idx` adds into flat bin `b` (zero if it adds
elsewhere or adds nothing). -/
def threadContrib (n_evts n_bins_x n_bins_y : ℕ)
    (X Y W bin_edges_x bin_edges_y : ℕ → ℚ) (idx : ℕ) (b : ℤ) : ℚ :=
  match hist2DthreadOp n_evts n_bins_x n_bins_y X Y W bin_edges_x bin_edges_y idx with
  | some p => if p.1 = b then p.2 else 0
  | none => 0

/-- The binning invariant of the data model: strictly increasing edges on
the `n_bins + 1` stored boundaries. -/
def StrictEdges (n_bins : ℕ) (edges : ℕ → ℚ) : Prop :=
  ∀ i, i < n_bins → edges i < edges (i + 1)

instance (n_bins : ℕ) (edges : ℕ → ℚ) : Decidable (StrictEdges n_bins edges) := by
  unfold StrictEdges; infer_instance

/-- A correct answer for `locate`: `b` is a valid bin index,
`edges[b] ≤ x`, and either `x < edges[b+1]` or `b` is the last bin (the
right-edge-inclusive special case). -/
def binChar (x : ℚ) (n_bins : ℕ) (edges : ℕ → ℚ) (b : ℕ) : Prop :=
  b < n_bins ∧ edges b ≤ x ∧ (x < edges (b + 1) ∨ b = n_bins - 1)

lemma edges_lt_of_lt {n_bins : ℕ} {edges : ℕ → ℚ}
    (hmono : StrictEdges n_bins edges) :
    ∀ {i j : ℕ}, i < j → j ≤ n_bins → edges i < edges j := by
  intro i j hij hjn
  induction j with
  | zero => omega
  | succ k ih =>
    rcases Nat.lt_succ_iff_lt_or_eq.mp hij with h | h
    · exact lt_trans (ih h (by omega)) (hmono k (by omega))
    · subst h; exact hmono i (by omega)

lemma edges_le_of_le {n_bins : ℕ} {edges : ℕ → ℚ}
    (hmono : StrictEdges n_bins edges) :
    ∀ {i j : ℕ}, i ≤ j → j ≤ n_bins → edges i ≤ edges j := by
  intro i j hij hjn
  rcases Nat.lt_or_ge i j with h | h
  · exact le_of_lt (edges_lt_of_lt hmono h hjn)
  · have : i = j := le_antisymm hij h
    simp [this]

lemma lt_of_edges_lt {n_bins : ℕ} {edges : ℕ → ℚ}
    (hmono : StrictEdges n_bins edges) {i j : ℕ}
    (hi : i ≤ n_bins) (h : edges i < edges j) : i < j := by
  by_contra hc
  exact absurd (edges_le_of_le hmono (Nat.le_of_not_lt hc) hi) (not_le.mpr h)

/-- Any two bins satisfying `binChar` coincide: the characterisation pins
down a unique answer under strictly increasing edges. -/
lemma binChar_unique {x : ℚ} {n_bins : ℕ} {edges : ℕ → ℚ}
    (hmono : StrictEdges n_bins edges) {b b' : ℕ}
    (h : binChar x n_bins edges b) (h' : binChar x n_bins edges b') :
    b = b' := by
  obtain ⟨hb, hbl, hbr⟩ := h
  obtain ⟨hb', hbl', hbr'⟩ := h'
  rcases hbr with hr | hr
  · rcases hbr' with hr' | hr'
    · -- both strict on the right: edges b' ≤ x < edges (b+1) and conversely
      have h1 : b' < b + 1 :=
        lt_of_edges_lt hmono (by omega) (lt_of_le_of_lt hbl' hr)
      have h2 : b < b' + 1 :=
        lt_of_edges_lt hmono (by omega) (lt_of_le_of_lt hbl hr')
      omega
    · -- b' is the last bin and edges b' ≤ x < edges (b+1)
      have h1 : b' < b + 1 :=
        lt_of_edges_lt hmono (by omega) (lt_of_le_of_lt hbl' hr)
      omega
  · rcases hbr' with hr' | hr'
    · have h1 : b < b' + 1 :=
        lt_of_edges_lt hmono (by omega) (lt_of_le_of_lt hbl hr')
      omega
    · omega

/-- Invariant-based correctness of the `GetBin` binary-search loop: run
from any window `[first, last]` that brackets `x`, with enough fuel, the
loop breaks with a bin satisfying `binChar`. -/
lemma getBinLoop_correct {x : ℚ} {n_bins : ℕ} {edges : ℕ → ℚ}
    (hn : 1 ≤ n_bins) (hx2 : x ≤ edges n_bins) :
    ∀ fuel first last : ℕ, ∀ bin : Option ℤ,
      last ≤ n_bins - 1 →
      first ≤ last →
      edges first ≤ x →
      (x < edges (last + 1) ∨ last = n_bins - 1) →
      last + 1 - first ≤ fuel →
      ∃ b : ℕ, getBinLoop x n_bins edges fuel (first : ℤ) (last : ℤ) bin
          = some (b : ℤ) ∧
        first ≤ b ∧ b ≤ last ∧ binChar x n_bins edges b := by
  intro fuel
  induction fuel with
  | zero => intro first last bin _ h2 _ _ h5; omega
  | succ f ih =>
    intro first last bin h1 h2 h3 h4 h5
    have hfl : (first : ℤ) ≤ (last : ℤ) := by exact_mod_cast h2
    have hmid : ((first : ℤ) + (last : ℤ)) / 2 = ((first + last) / 2 : ℕ) := by
      omega
    simp only [getBinLoop, if_pos hfl, hmid, Int.toNat_natCast]
    set m := (first + last) / 2 with hm
    have hmf : first ≤ m := by omega
    have hml : m ≤ last := by omega
    by_cases hlow : edges m ≤ x
    · rw [if_pos hlow]
      by_cases hbrk : x < edges (m + 1) ∨ (x ≤ edges n_bins ∧ (m : ℤ) = (n_bins : ℤ) - 1)
      · rw [if_pos hbrk]
        refine ⟨m, rfl, hmf, hml, ?_, hlow, ?_⟩
        · omega
        · rcases hbrk with hb | hb
          · exact Or.inl hb
          · exact Or.inr (by omega)
      · rw [if_neg hbrk]
        push_neg at hbrk
        obtain ⟨hup, hnotlast⟩ := hbrk
        have hmne : m ≠ n_bins - 1 := by
          intro hc
          exact hnotlast hx2 (by omega)
        have hmlt : m < last := by
          rcases Nat.lt_or_ge m last with h | h
          · exact h
          · have hml' : m = last := by omega
            rcases h4 with h4 | h4
            · exact absurd (hml' ▸ h4) (not_lt.mpr hup)
            · omega
        have hcast : ((m : ℤ) + 1) = ((m + 1 : ℕ) : ℤ) := by push_cast; ring
        rw [hcast]
        obtain ⟨b, hb, hb1, hb2, hb3⟩ :=
          ih (m + 1) last (some (m : ℤ)) h1 (by omega) hup h4 (by omega)
        exact ⟨b, hb, by omega, hb2, hb3⟩
    · rw [if_neg hlow]
      have hxm : x < edges m := not_le.mp hlow
      have hfm : first < m := by
        rcases Nat.lt_or_ge first m with h | h
        · exact h
        · have : first = m := by omega
          exact absurd (this ▸ hxm) (not_lt.mpr (this ▸ h3))
      have hcast : ((m : ℤ) - 1) = ((m - 1 : ℕ) : ℤ) := by
        have : 1 ≤ m := by omega
        omega
      rw [hcast]
      have h4' : x < edges ((m - 1) + 1) ∨ (m - 1) = n_bins - 1 := by
        left
        have : (m - 1) + 1 = m := by omega
        rw [this]
        exact hxm
      obtain ⟨b, hb, hb1, hb2, hb3⟩ :=
        ih first (m - 1) (some (m : ℤ)) (by omega) (by omega) h3 h4' (by omega)
      exact ⟨b, hb, hb1, by omega, hb3⟩

/-- Totality and correctness of `GetBin` on in-range inputs: for strictly
increasing edges and `x` inside `[edges 0, edges n_bins]`, the search
breaks with the (unique) bin satisfying `binChar`. -/
theorem GetBin_correct {x : ℚ} {n_bins : ℕ} {edges : ℕ → ℚ}
    (hn : 1 ≤ n_bins)
    (hx1 : edges 0 ≤ x) (hx2 : x ≤ edges n_bins) :
    ∃ b : ℕ, GetBin x n_bins edges = some (b : ℤ) ∧ binChar x n_bins edges b := by
  have hcast : ((n_bins : ℤ) - 1) = ((n_bins - 1 : ℕ) : ℤ) := by omega
  obtain ⟨b, hb, _, _, hb3⟩ :=
    getBinLoop_correct hn hx2 (n_bins + 1) 0 (n_bins - 1) none
      (le_refl _) (by omega) hx1 (Or.inr rfl) (by omega)
  refine ⟨b, ?_, hb3⟩
  rw [GetBin, hcast]
  simpa using hb

/-- The bin `k` itself satisfies the characterisation at `x = edges k`,
for `k < n_bins`. -/
lemma binChar_self {n_bins : ℕ} {edges : ℕ → ℚ}
    (hmono : StrictEdges n_bins edges) {k : ℕ} (hk : k < n_bins) :
    binChar (edges k) n_bins edges k :=
  ⟨hk, le_refl _, Or.inl (hmono k hk)⟩

/-- The last bin satisfies the characterisation at the right boundary
`x = edges n_bins`. -/
lemma binChar_last {n_bins : ℕ} {edges : ℕ → ℚ}
    (hmono : StrictEdges n_bins edges) (hn : 1 ≤ n_bins) :
    binChar (edges n_bins) n_bins edges (n_bins - 1) :=
  ⟨by omega, edges_le_of_le hmono (by omega) (le_refl _), Or.inr rfl⟩

end Pisa

namespace Pisa

/-- C2: with strictly increasing edges, `GetBin` maps the right boundary
`edges n_bins` to the last bin `n_bins - 1`, and every other edge
`edges k` (`k < n_bins`) to bin `k`: bins are closed-low/open-high except
the last bin, which is closed on both ends. -/
theorem getBin_boundary_law {n_bins : ℕ} {edges : ℕ → ℚ}
    (hmono : StrictEdges n_bins edges) (hn : 1 ≤ n_bins) :
    GetBin (edges n_bins) n_bins edges = some ((n_bins : ℤ) - 1) ∧
      ∀ k, k < n_bins → GetBin (edges k) n_bins edges = some (k : ℤ) := by
  constructor
  · obtain ⟨b, hb, hbc⟩ :=
      GetBin_correct hn (edges_le_of_le hmono (by omega) (le_refl _)) (le_refl _)
    have : b = n_bins - 1 := binChar_unique hmono hbc (binChar_last hmono hn)
    rw [hb, this]
    congr 1
    omega
  · intro k hk
    obtain ⟨b, hb, hbc⟩ :=
      GetBin_correct hn (edges_le_of_le hmono (Nat.zero_le k) (by omega))
        (edges_le_of_le hmono (by omega) (le_refl _))
    have : b = k := binChar_unique hmono hbc (binChar_self hmono hk)
    rw [hb, this]

/-- Witness for C2 at edges `0,1,2,3`. -/
theorem getBin_boundary_law_witness :
    StrictEdges 3 exEdges ∧ 1 ≤ 3 ∧
      (GetBin (exEdges 3) 3 exEdges = some ((3 : ℤ) - 1) ∧
        ∀ k, k < 3 → GetBin (exEdges k) 3 exEdges = some (k : ℤ)) :=
  ⟨by decide, by decide, getBin_boundary_law (by decide) (by decide)⟩

/-- C4: with strictly increasing edges and `n_bins ≥ 1`, `GetBin` is total
on `[edges 0, edges n_bins]` and returns a bin index in `[0, n_bins)`;
for a coordinate outside the range of either dimension, the `Hist2D`
kernel thread produces the out-of-range sentinel (no bin, no
contribution) instead of a bin index. -/
theorem locate_total_and_sentinel {n_bins : ℕ} {edges : ℕ → ℚ}
    (hmono : StrictEdges n_bins edges) (hn : 1 ≤ n_bins) :
    (∀ x : ℚ, edges 0 ≤ x → x ≤ edges n_bins →
      ∃ b : ℕ, GetBin x n_bins edges = some (b : ℤ) ∧ b < n_bins) ∧
    (∀ (n_evts n_bins_y : ℕ) (X Y W edges_y : ℕ → ℚ) (idx : ℕ),
      (X idx < edges 0 ∨ edges n_bins < X idx) →
      hist2DthreadOp n_evts n_bins n_bins_y X Y W edges edges_y idx = none) := by
  constructor
  · intro x hx1 hx2
    obtain ⟨b, hb, hbc⟩ := GetBin_correct hn hx1 hx2
    exact ⟨b, hb, hbc.1⟩
  · intro n_evts n_bins_y X Y W edges_y idx hout
    unfold hist2DthreadOp
    by_cases hidx : idx < n_evts
    · rw [if_pos hidx, if_neg]
      rintro ⟨h1, h2, _, _⟩
      rcases hout with h | h
      · exact absurd h1 (not_le.mpr h)
      · exact absurd h2 (not_le.mpr h)
    · rw [if_neg hidx]

/-- Witness for C4 at edges `0,1,2,3`. -/
theorem locate_total_and_sentinel_witness :
    StrictEdges 3 exEdges ∧ 1 ≤ 3 ∧
      ((∀ x : ℚ, exEdges 0 ≤ x → x ≤ exEdges 3 →
        ∃ b : ℕ, GetBin x 3 exEdges = some (b : ℤ) ∧ b < 3) ∧
      (∀ (n_evts n_bins_y : ℕ) (X Y W edges_y : ℕ → ℚ) (idx : ℕ),
        (X idx < exEdges 0 ∨ exEdges 3 < X idx) →
        hist2DthreadOp n_evts 3 n_bins_y X Y W exEdges edges_y idx = none)) :=
  ⟨by decide, by decide, locate_total_and_sentinel (by decide) (by decide)⟩

/-- Threads never write to the event, weight or edge buffers: the memory
after an optional atomic update agrees with the memory before on every
field but `hist`. -/
lemma applyOp_fields (m : DeviceMem) (o : Option (ℤ × ℚ)) :
    (applyOp m o).X = m.X ∧ (applyOp m o).Y = m.Y ∧ (applyOp m o).W = m.W ∧
      (applyOp m o).bin_edges_x = m.bin_edges_x ∧
      (applyOp m o).bin_edges_y = m.bin_edges_y := by
  cases o <;> exact ⟨rfl, rfl, rfl, rfl, rfl⟩

lemma hist2Dthread_fields (n_evts n_bins_x n_bins_y : ℕ) (m : DeviceMem)
    (idx : ℕ) :
    (hist2Dthread n_evts n_bins_x n_bins_y m idx).X = m.X ∧
      (hist2Dthread n_evts n_bins_x n_bins_y m idx).Y = m.Y ∧
      (hist2Dthread n_evts n_bins_x n_bins_y m idx).W = m.W ∧
      (hist2Dthread n_evts n_bins_x n_bins_y m idx).bin_edges_x = m.bin_edges_x ∧
      (hist2Dthread n_evts n_bins_x n_bins_y m idx).bin_edges_y = m.bin_edges_y :=
  applyOp_fields m _

/-- Pointwise effect of one thread on the histogram buffer. -/
lemma hist2Dthread_hist (n_evts n_bins_x n_bins_y : ℕ) (m : DeviceMem)
    (idx : ℕ) (b : ℤ) :
    (hist2Dthread n_evts n_bins_x n_bins_y m idx).hist b
      = m.hist b + threadContrib n_evts n_bins_x n_bins_y
          m.X m.Y m.W m.bin_edges_x m.bin_edges_y idx b := by
  unfold hist2Dthread threadContrib
  cases hist2DthreadOp n_evts n_bins_x n_bins_y
      m.X m.Y m.W m.bin_edges_x m.bin_edges_y idx with
  | none => simp [applyOp]
  | some p =>
    simp only [applyOp, atomicAdd, Function.update_apply]
    rcases eq_or_ne b p.1 with h | h
    · simp [h]
    · simp [h, Ne.symm h]

/-- Executing a list of threads leaves every buffer but the histogram
untouched. -/
lemma execThreads_fields (n_evts n_bins_x n_bins_y : ℕ) (l : List ℕ)
    (m : DeviceMem) :
    (execThreads n_evts n_bins_x n_bins_y l m).X = m.X ∧
      (execThreads n_evts n_bins_x n_bins_y l m).Y = m.Y ∧
      (execThreads n_evts n_bins_x n_bins_y l m).W = m.W ∧
      (execThreads n_evts n_bins_x n_bins_y l m).bin_edges_x = m.bin_edges_x ∧
      (execThreads n_evts n_bins_x n_bins_y l m).bin_edges_y = m.bin_edges_y := by
  induction l generalizing m with
  | nil => exact ⟨rfl, rfl, rfl, rfl, rfl⟩
  | cons i t ih =>
    obtain ⟨h1, h2, h3, h4, h5⟩ := ih (hist2Dthread n_evts n_bins_x n_bins_y m i)
    obtain ⟨g1, g2, g3, g4, g5⟩ := hist2Dthread_fields n_evts n_bins_x n_bins_y m i
    exact ⟨h1.trans g1, h2.trans g2, h3.trans g3, h4.trans g4, h5.trans g5⟩

/-- Pointwise characterisation of a thread-list execution: each histogram
cell ends up holding its initial value plus the sum of the listed threads'
contributions to it. -/
lemma execThreads_hist (n_evts n_bins_x n_bins_y : ℕ) (l : List ℕ)
    (m : DeviceMem) (b : ℤ) :
    (execThreads n_evts n_bins_x n_bins_y l m).hist b
      = m.hist b + (l.map (fun idx => threadContrib n_evts n_bins_x n_bins_y
          m.X m.Y m.W m.bin_edges_x m.bin_edges_y idx b)).sum := by
  induction l generalizing m with
  | nil => simp [execThreads]
  | cons i t ih =>
    have hstep : execThreads n_evts n_bins_x n_bins_y (i :: t) m
        = execThreads n_evts n_bins_x n_bins_y t
            (hist2Dthread n_evts n_bins_x n_bins_y m i) := rfl
    obtain ⟨g1, g2, g3, g4, g5⟩ := hist2Dthread_fields n_evts n_bins_x n_bins_y m i
    rw [hstep, ih, g1, g2, g3, g4, g5, hist2Dthread_hist]
    simp only [List.map_cons, List.sum_cons]
    ring

/-- Bridge from list sums over `List.range` to `Finset.range` sums. -/
lemma list_range_sum (f : ℕ → ℚ) (k : ℕ) :
    ((List.range k).map f).sum = ∑ i in Finset.range k, f i := by
  induction k with
  | zero => simp
  | succ k ih =>
    rw [List.range_succ, List.map_append, List.sum_append,
      Finset.sum_range_succ, ih]
    simp

/-- The histogram `get_hist` returns, cell by cell: the clear-then-launch
sequence produces exactly the sum of all launched threads' contributions,
computed from the memory's own buffers. -/
lemma get_hist_snd (m : DeviceMem) (n_evts n_bins_x n_bins_y : ℕ) (b : ℤ) :
    (GPUhist.get_hist m n_evts n_bins_x n_bins_y).2 b
      = ∑ idx in Finset.range (totalThreads n_evts),
          threadContrib n_evts n_bins_x n_bins_y
            m.X m.Y m.W m.bin_edges_x m.bin_edges_y idx b := by
  show (execThreads n_evts n_bins_x n_bins_y
      (List.range (totalThreads n_evts)) (GPUhist.clear m)).hist b = _
  rw [execThreads_hist]
  show (0 : ℚ) + _ = _
  rw [zero_add, list_range_sum]
  rfl

/-- Unfolding of `accumulate` to the per-thread contribution sum. -/
lemma accumulate_eq_sum (n_evts n_bins_x n_bins_y : ℕ)
    (X Y W bin_edges_x bin_edges_y : ℕ → ℚ) (b : ℤ) :
    accumulate n_evts n_bins_x n_bins_y X Y W bin_edges_x bin_edges_y b
      = ∑ idx in Finset.range (totalThreads n_evts),
          threadContrib n_evts n_bins_x n_bins_y
            X Y W bin_edges_x bin_edges_y idx b :=
  get_hist_snd ⟨X, Y, W, bin_edges_x, bin_edges_y, fun _ => 0⟩ n_evts n_bins_x n_bins_y b

/-- Workers at or beyond `n_evts` fail the `idx < n_evts` guard and
contribute nothing. -/
lemma threadContrib_of_ge (n_evts n_bins_x n_bins_y : ℕ)
    (X Y W bin_edges_x bin_edges_y : ℕ → ℚ) {idx : ℕ} (h : n_evts ≤ idx) (b : ℤ) :
    threadContrib n_evts n_bins_x n_bins_y X Y W bin_edges_x bin_edges_y idx b = 0 := by
  unfold threadContrib hist2DthreadOp
  rw [if_neg (by omega)]

/-- The launch always allocates at least as many workers as events. -/
lemma le_totalThreads (n_evts : ℕ) : n_evts ≤ totalThreads n_evts := by
  unfold totalThreads gridDimX blockSize
  rcases Nat.eq_zero_or_pos (n_evts % 256) with h | h
  · simp only [h]
    omega
  · rw [if_pos h]
    omega

/-- Truncating the thread sum to the first `n_evts` workers loses nothing. -/
lemma accumulate_eq_sum_events (n_evts n_bins_x n_bins_y : ℕ)
    (X Y W bin_edges_x bin_edges_y : ℕ → ℚ) (b : ℤ) :
    accumulate n_evts n_bins_x n_bins_y X Y W bin_edges_x bin_edges_y b
      = ∑ idx in Finset.range n_evts,
          threadContrib n_evts n_bins_x n_bins_y
            X Y W bin_edges_x bin_edges_y idx b := by
  rw [accumulate_eq_sum]
  refine (Finset.sum_subset (Finset.range_subset.mpr (le_totalThreads n_evts)) ?_).symm
  intro idx _ hnot
  exact threadContrib_of_ge _ _ _ _ _ _ _ _ (by simpa using hnot) b

/-- With at least one event, the launch over-allocates strictly: the grid
rounds the event count up to whole blocks and then scales by the block
size again. -/
lemma lt_totalThreads {n_evts : ℕ} (hn : 1 ≤ n_evts) :
    n_evts < totalThreads n_evts := by
  unfold totalThreads gridDimX blockSize
  rcases Nat.eq_zero_or_pos (n_evts % 256) with h | h
  · simp only [h]
    omega
  · rw [if_pos h]
    omega

/-- On an in-range event with a live thread, the kernel computes both bin
indices and schedules an atomic add of the event's weight into the flat
bin `bin_y + bin_x * n_bins_y`, with both indices in range. -/
lemma hist2DthreadOp_in_range {n_evts n_bins_x n_bins_y : ℕ}
    {X Y W bin_edges_x bin_edges_y : ℕ → ℚ} {idx : ℕ}
    (hnx : 1 ≤ n_bins_x) (hny : 1 ≤ n_bins_y) (hidx : idx < n_evts)
    (hin : eventInRange n_bins_x n_bins_y X Y bin_edges_x bin_edges_y idx) :
    ∃ bx b_y : ℕ, bx < n_bins_x ∧ b_y < n_bins_y ∧
      hist2DthreadOp n_evts n_bins_x n_bins_y X Y W bin_edges_x bin_edges_y idx
        = some (((b_y + bx * n_bins_y : ℕ) : ℤ), W idx) := by
  obtain ⟨hx1, hx2, hy1, hy2⟩ := hin
  obtain ⟨bx, hbx, hbcx⟩ := GetBin_correct hnx hx1 hx2
  obtain ⟨b_y, hby, hbcy⟩ := GetBin_correct hny hy1 hy2
  refine ⟨bx, b_y, hbcx.1, hbcy.1, ?_⟩
  unfold hist2DthreadOp
  rw [if_pos hidx, if_pos ⟨hx1, hx2, hy1, hy2⟩, hbx, hby]
  norm_cast

/-- Summing one thread's contribution over all valid flat bins recovers
the event's weight when the event is in range, and zero otherwise. -/
lemma sum_bins_threadContrib {n_evts n_bins_x n_bins_y : ℕ}
    {X Y W bin_edges_x bin_edges_y : ℕ → ℚ} {idx : ℕ}
    (hnx : 1 ≤ n_bins_x) (hny : 1 ≤ n_bins_y) (hidx : idx < n_evts) :
    ∑ b in Finset.range (n_bins_x * n_bins_y),
        threadContrib n_evts n_bins_x n_bins_y X Y W bin_edges_x bin_edges_y idx (b : ℤ)
      = if eventInRange n_bins_x n_bins_y X Y bin_edges_x bin_edges_y idx
        then W idx else 0 := by
  by_cases hin : eventInRange n_bins_x n_bins_y X Y bin_edges_x bin_edges_y idx
  · rw [if_pos hin]
    obtain ⟨bx, b_y, hbx, hby, hop⟩ :=
      hist2DthreadOp_in_range hnx hny hidx hin
    have hcongr : ∀ b ∈ Finset.range (n_bins_x * n_bins_y),
        threadContrib n_evts n_bins_x n_bins_y X Y W bin_edges_x bin_edges_y idx (b : ℤ)
          = if b_y + bx * n_bins_y = b then W idx else 0 := by
      intro b _
      unfold threadContrib
      rw [hop]
      show (if ((b_y + bx * n_bins_y : ℕ) : ℤ) = (b : ℤ) then W idx else 0)
        = if b_y + bx * n_bins_y = b then W idx else 0
      norm_cast
    rw [Finset.sum_congr rfl hcongr,
      Finset.sum_ite_eq (Finset.range (n_bins_x * n_bins_y)) (b_y + bx * n_bins_y)
        (fun _ => W idx)]
    have hflat : b_y + bx * n_bins_y < n_bins_x * n_bins_y := by
      have h1 : (bx + 1) * n_bins_y ≤ n_bins_x * n_bins_y :=
        Nat.mul_le_mul_right _ (by omega)
      have h2 : b_y + bx * n_bins_y < (bx + 1) * n_bins_y := by
        rw [Nat.succ_mul]
        omega
      omega
    rw [if_pos (Finset.mem_range.mpr hflat)]
  · rw [if_neg hin]
    refine Finset.sum_eq_zero fun b _ => ?_
    unfold threadContrib hist2DthreadOp
    unfold eventInRange at hin
    rw [if_pos hidx, if_neg hin]

end Pisa

namespace Pisa

/-- C9: with at least one event, the launch strictly over-allocates
workers, every worker at or beyond `n_evts` contributes nothing to any
bin, and the final histogram is the sum over exactly the event indices
`0 ≤ idx < n_evts` of their single contributions — each event's weight is
added exactly once. -/
theorem launch_covers_each_event_once {n_evts : ℕ} (n_bins_x n_bins_y : ℕ)
    (X Y W bin_edges_x bin_edges_y : ℕ → ℚ) (hn : 1 ≤ n_evts) :
    n_evts < totalThreads n_evts ∧
    (∀ idx, n_evts ≤ idx → ∀ b : ℤ,
      threadContrib n_evts n_bins_x n_bins_y X Y W bin_edges_x bin_edges_y idx b = 0) ∧
    (∀ b : ℤ, accumulate n_evts n_bins_x n_bins_y X Y W bin_edges_x bin_edges_y b
      = ∑ idx in Finset.range n_evts,
          threadContrib n_evts n_bins_x n_bins_y X Y W bin_edges_x bin_edges_y idx b) :=
  ⟨lt_totalThreads hn,
   fun _ hidx b => threadContrib_of_ge _ _ _ _ _ _ _ _ hidx b,
   fun b => accumulate_eq_sum_events _ _ _ _ _ _ _ _ b⟩

/-- Witness for C9 with one event and trivial buffers. -/
theorem launch_covers_each_event_once_witness :
    (1 : ℕ) ≤ 1 ∧
    ((1 : ℕ) < totalThreads 1 ∧
    (∀ idx, 1 ≤ idx → ∀ b : ℤ,
      threadContrib 1 3 3 exEdges exEdges exEdges exEdges exEdges idx b = 0) ∧
    (∀ b : ℤ, accumulate 1 3 3 exEdges exEdges exEdges exEdges exEdges b
      = ∑ idx in Finset.range 1,
          threadContrib 1 3 3 exEdges exEdges exEdges exEdges exEdges idx b)) :=
  ⟨by decide,
   launch_covers_each_event_once 3 3 exEdges exEdges exEdges exEdges exEdges (by decide)⟩

/-- C3: the total mass of the accumulated histogram — the sum over all
`n_bins_x * n_bins_y` flat bins — equals the sum of the weights of
exactly the events that are in range in both dimensions; an event out of
range in either dimension contributes nothing anywhere and raises no
error. -/
theorem accumulate_total_mass {n_evts n_bins_x n_bins_y : ℕ}
    (X Y W bin_edges_x bin_edges_y : ℕ → ℚ)
    (hnx : 1 ≤ n_bins_x) (hny : 1 ≤ n_bins_y) :
    (∑ b in Finset.range (n_bins_x * n_bins_y),
        accumulate n_evts n_bins_x n_bins_y X Y W bin_edges_x bin_edges_y (b : ℤ)
      = ∑ idx in Finset.range n_evts,
          (if eventInRange n_bins_x n_bins_y X Y bin_edges_x bin_edges_y idx
           then W idx else 0)) ∧
    ∀ idx, ¬ eventInRange n_bins_x n_bins_y X Y bin_edges_x bin_edges_y idx →
      ∀ b : ℤ,
        threadContrib n_evts n_bins_x n_bins_y X Y W bin_edges_x bin_edges_y idx b = 0 := by
  refine ⟨?_, ?_⟩
  case refine_2 =>
    intro idx hnot b
    unfold threadContrib hist2DthreadOp
    unfold eventInRange at hnot
    by_cases hidx : idx < n_evts
    · rw [if_pos hidx, if_neg hnot]
    · rw [if_neg hidx]
  have h1 : ∀ b ∈ Finset.range (n_bins_x * n_bins_y),
      accumulate n_evts n_bins_x n_bins_y X Y W bin_edges_x bin_edges_y (b : ℤ)
        = ∑ idx in Finset.range n_evts,
            threadContrib n_evts n_bins_x n_bins_y X Y W bin_edges_x bin_edges_y idx (b : ℤ) :=
    fun b _ => accumulate_eq_sum_events _ _ _ _ _ _ _ _ _
  rw [Finset.sum_congr rfl h1, Finset.sum_comm]
  exact Finset.sum_congr rfl fun idx hidx =>
    sum_bins_threadContrib hnx hny (Finset.mem_range.mp hidx)

/-- Witness for C3: one event at the origin of a 3x3 binning with unit
edges. -/
theorem accumulate_total_mass_witness :
    (1 : ℕ) ≤ 3 ∧
      ((∑ b in Finset.range (3 * 3),
          accumulate 2 3 3 exEdges exEdges exEdges exEdges exEdges (b : ℤ)
        = ∑ idx in Finset.range 2,
            (if eventInRange 3 3 exEdges exEdges exEdges exEdges idx
             then exEdges idx else 0)) ∧
      ∀ idx, ¬ eventInRange 3 3 exEdges exEdges exEdges exEdges idx →
        ∀ b : ℤ,
          threadContrib 2 3 3 exEdges exEdges exEdges exEdges exEdges idx b = 0) :=
  ⟨by decide,
   accumulate_total_mass exEdges exEdges exEdges exEdges exEdges (by decide) (by decide)⟩

/-- Two atomic fetch-and-adds to the histogram buffer commute, whether or
not they target the same cell: no interleaving of them loses an update. -/
lemma atomicAdd_comm (h : ℤ → ℚ) (b1 b2 : ℤ) (w1 w2 : ℚ) :
    atomicAdd (atomicAdd h b1 w1) b2 w2 = atomicAdd (atomicAdd h b2 w2) b1 w1 := by
  funext b
  simp only [atomicAdd, Function.update_apply]
  split_ifs <;> subst_vars
  all_goals first | ring1 | omega

/-- The memory effects of two optional atomic updates commute. -/
lemma applyOp_comm (m : DeviceMem) (o1 o2 : Option (ℤ × ℚ)) :
    applyOp (applyOp m o1) o2 = applyOp (applyOp m o2) o1 := by
  cases o1 with
  | none => rfl
  | some p =>
    cases o2 with
    | none => rfl
    | some q =>
      show ({ m with hist := atomicAdd (atomicAdd m.hist p.1 p.2) q.1 q.2 } : DeviceMem)
        = { m with hist := atomicAdd (atomicAdd m.hist q.1 q.2) p.1 p.2 }
      ext b <;> simp [atomicAdd_comm m.hist p.1 q.1 p.2 q.2]

/-- Two kernel threads commute: each reads only the buffers no thread
writes, and each writes only through its single atomic add. -/
lemma hist2Dthread_comm (n_evts n_bins_x n_bins_y : ℕ) (m : DeviceMem) (i j : ℕ) :
    hist2Dthread n_evts n_bins_x n_bins_y
        (hist2Dthread n_evts n_bins_x n_bins_y m i) j
      = hist2Dthread n_evts n_bins_x n_bins_y
          (hist2Dthread n_evts n_bins_x n_bins_y m j) i := by
  have hi := applyOp_fields m (hist2DthreadOp n_evts n_bins_x n_bins_y
    m.X m.Y m.W m.bin_edges_x m.bin_edges_y i)
  have hj := applyOp_fields m (hist2DthreadOp n_evts n_bins_x n_bins_y
    m.X m.Y m.W m.bin_edges_x m.bin_edges_y j)
  show applyOp (hist2Dthread n_evts n_bins_x n_bins_y m i) _
    = applyOp (hist2Dthread n_evts n_bins_x n_bins_y m j) _
  unfold hist2Dthread
  rw [hi.1, hi.2.1, hi.2.2.1, hi.2.2.2.1, hi.2.2.2.2,
    hj.1, hj.2.1, hj.2.2.1, hj.2.2.2.1, hj.2.2.2.2]
  exact applyOp_comm m _ _

end Pisa

namespace Pisa

/-- C5: during an accumulation pass the histogram buffer is the only
mutable state (every other buffer is left exactly as it was), every write
to it is a single atomic fetch-and-add, and consequently any execution
order of the launched threads — any permutation of the canonical
schedule — produces the same final memory: concurrent additions lose no
updates. -/
theorem atomic_accumulation_schedule_independent
    (n_evts n_bins_x n_bins_y : ℕ) (m : DeviceMem) :
    ((execThreads n_evts n_bins_x n_bins_y
        (List.range (totalThreads n_evts)) m).X = m.X ∧
      (execThreads n_evts n_bins_x n_bins_y
        (List.range (totalThreads n_evts)) m).Y = m.Y ∧
      (execThreads n_evts n_bins_x n_bins_y
        (List.range (totalThreads n_evts)) m).W = m.W ∧
      (execThreads n_evts n_bins_x n_bins_y
        (List.range (totalThreads n_evts)) m).bin_edges_x = m.bin_edges_x ∧
      (execThreads n_evts n_bins_x n_bins_y
        (List.range (totalThreads n_evts)) m).bin_edges_y = m.bin_edges_y) ∧
    ∀ l : List ℕ, l.Perm (List.range (totalThreads n_evts)) →
      execThreads n_evts n_bins_x n_bins_y l m
        = launchHist2D n_evts n_bins_x n_bins_y m := by
  refine ⟨execThreads_fields _ _ _ _ _, fun l hperm => ?_⟩
  exact hperm.foldl_eq'
    (fun i _ j _ z => hist2Dthread_comm n_evts n_bins_x n_bins_y z i j) m

/-- Witness for C5: running the whole launch in reverse thread order
yields the same memory as the canonical schedule. -/
theorem atomic_accumulation_schedule_independent_witness :
    (List.range (totalThreads 1)).reverse.Perm (List.range (totalThreads 1)) ∧
      execThreads 1 3 3 (List.range (totalThreads 1)).reverse
          ⟨exEdges, exEdges, exEdges, exEdges, exEdges, fun _ => 0⟩
        = launchHist2D 1 3 3 ⟨exEdges, exEdges, exEdges, exEdges, exEdges, fun _ => 0⟩ :=
  ⟨List.reverse_perm _,
   (atomic_accumulation_schedule_independent 1 3 3
      ⟨exEdges, exEdges, exEdges, exEdges, exEdges, fun _ => 0⟩).2
     (List.range (totalThreads 1)).reverse (List.reverse_perm _)⟩

/-- Buffers other than the histogram are unchanged across a full
`get_hist` call (shared by the frame and idempotence claims). -/
lemma get_hist_fields (m : DeviceMem) (n_evts n_bins_x n_bins_y : ℕ) :
    (GPUhist.get_hist m n_evts n_bins_x n_bins_y).1.X = m.X ∧
      (GPUhist.get_hist m n_evts n_bins_x n_bins_y).1.Y = m.Y ∧
      (GPUhist.get_hist m n_evts n_bins_x n_bins_y).1.W = m.W ∧
      (GPUhist.get_hist m n_evts n_bins_x n_bins_y).1.bin_edges_x = m.bin_edges_x ∧
      (GPUhist.get_hist m n_evts n_bins_x n_bins_y).1.bin_edges_y = m.bin_edges_y := by
  have h := execThreads_fields n_evts n_bins_x n_bins_y
    (List.range (totalThreads n_evts)) (GPUhist.clear m)
  exact h

/-- C10: an accumulation pass never modifies the coordinate buffers, the
weight buffer or the bin-edge buffers — after `get_hist`, every buffer
other than the histogram holds exactly what it held before the call. -/
theorem get_hist_frame (m : DeviceMem) (n_evts n_bins_x n_bins_y : ℕ) :
    (GPUhist.get_hist m n_evts n_bins_x n_bins_y).1.X = m.X ∧
      (GPUhist.get_hist m n_evts n_bins_x n_bins_y).1.Y = m.Y ∧
      (GPUhist.get_hist m n_evts n_bins_x n_bins_y).1.W = m.W ∧
      (GPUhist.get_hist m n_evts n_bins_x n_bins_y).1.bin_edges_x = m.bin_edges_x ∧
      (GPUhist.get_hist m n_evts n_bins_x n_bins_y).1.bin_edges_y = m.bin_edges_y :=
  get_hist_fields m n_evts n_bins_x n_bins_y

/-- C6: calling `get_hist` twice in succession on the same inputs yields
identical histograms, because `clear` zeroes the device histogram at the
start of every pass; moreover the returned histogram is exactly the
accumulation from a zeroed buffer, so repeated calls are never additive. -/
theorem get_hist_repeat_identical (m : DeviceMem) (n_evts n_bins_x n_bins_y : ℕ) :
    (GPUhist.get_hist (GPUhist.get_hist m n_evts n_bins_x n_bins_y).1
        n_evts n_bins_x n_bins_y).2
      = (GPUhist.get_hist m n_evts n_bins_x n_bins_y).2 ∧
    (GPUhist.get_hist m n_evts n_bins_x n_bins_y).2
      = accumulate n_evts n_bins_x n_bins_y m.X m.Y m.W m.bin_edges_x m.bin_edges_y := by
  constructor
  · funext b
    rw [get_hist_snd, get_hist_snd]
    obtain ⟨h1, h2, h3, h4, h5⟩ := get_hist_fields m n_evts n_bins_x n_bins_y
    rw [h1, h2, h3, h4, h5]
  · funext b
    rw [get_hist_snd, accumulate_eq_sum]

/-- First-hit description of `List.find?` over `List.range`: if `b < n`
satisfies the predicate and nothing below it does, the scan returns `b`. -/
lemma find?_range_eq_some {p : ℕ → Bool} {n b : ℕ} (hb : b < n)
    (hpb : p b = true) (hmin : ∀ j, j < b → p j = false) :
    (List.range n).find? p = some b := by
  induction n with
  | zero => omega
  | succ k ih =>
    rw [List.range_succ, List.find?_append]
    rcases Nat.lt_or_ge b k with h | h
    · rw [ih h]
      rfl
    · have hbk : b = k := by omega
      have hnone : (List.range k).find? p = none := by
        rw [List.find?_eq_none]
        intro j hj
        have hjk : j < k := List.mem_range.mp hj
        simp [hmin j (by omega)]
      rw [hnone]
      subst hbk
      simp [List.find?, hpb]

/-- Modelled from the spec: the `locate(x, edges)` contract of section
4.1, which is what `pisa.core.translation.histogram` (not under src/, only
its callers are) realises per dimension — out of range when `x < edges 0`
or `edges n_bins < x`, otherwise the unique bin with
`edges bin ≤ x < edges (bin+1)`, except that `x = edges n_bins` belongs to
the last bin. -/
def specLocate (x : ℚ) (n_bins : ℕ) (edges : ℕ → ℚ) : Option ℕ :=
  if x < edges 0 ∨ edges n_bins < x then none
  else (List.range n_bins).find? fun b =>
    decide (edges b ≤ x) && (decide (x < edges (b + 1)) || decide (b = n_bins - 1))

/-- Refinement of the spec's `locate` by the CUDA binary search: on
in-range inputs both produce the same bin. -/
lemma specLocate_eq_getBin {x : ℚ} {n_bins : ℕ} {edges : ℕ → ℚ}
    (hmono : StrictEdges n_bins edges) (hn : 1 ≤ n_bins)
    (hx1 : edges 0 ≤ x) (hx2 : x ≤ edges n_bins) :
    ∃ b : ℕ, GetBin x n_bins edges = some (b : ℤ) ∧
      specLocate x n_bins edges = some b ∧ b < n_bins := by
  obtain ⟨b, hb, hbc⟩ := GetBin_correct hn hx1 hx2
  refine ⟨b, hb, ?_, hbc.1⟩
  unfold specLocate
  rw [if_neg (by push_neg; exact ⟨hx1, hx2⟩)]
  refine find?_range_eq_some hbc.1 ?_ ?_
  · simp only [Bool.and_eq_true, Bool.or_eq_true, decide_eq_true_eq]
    exact ⟨hbc.2.1, hbc.2.2⟩
  · intro j hj
    rcases Bool.eq_false_or_eq_true
        (decide (edges j ≤ x) && (decide (x < edges (j + 1)) || decide (j = n_bins - 1))) with ht | hf
    · exfalso
      simp only [Bool.and_eq_true, Bool.or_eq_true, decide_eq_true_eq] at ht
      have hcj : binChar x n_bins edges j := ⟨lt_trans hj hbc.1, ht.1, ht.2⟩
      have : j = b := binChar_unique hmono hcj hbc
      omega
    · exact hf

/-- Modelled from the spec: `build_transform(sample, binning)` — the
one-hot transform that `hist.setup_function` caches by calling
`pisa.core.translation.histogram(sample, None, binning, averaged=False)`
(that builder is not under src/).  Entry `(e, b)` is 1 when event `e`
falls in flat bin `b` under the spec's locate rule and the row-major flat
index `bin_y + bin_x * n_bins_y`, else 0; rows of out-of-range events are
all zero. -/
def build_transform (n_bins_x n_bins_y : ℕ)
    (X Y bin_edges_x bin_edges_y : ℕ → ℚ) (e b : ℕ) : ℚ :=
  match specLocate (X e) n_bins_x bin_edges_x,
      specLocate (Y e) n_bins_y bin_edges_y with
  | some bx, some b_y => if b = b_y + bx * n_bins_y then 1 else 0
  | _, _ => 0

/-- The per-iteration contraction of `hist.apply_function`
(pisa/stages/utils/hist.py, line 89): `hist = weights @ transform`, the
weight vector against the reshaped `n_evts × total_bins` transform,
evaluated at output bin `b`. -/
def apply_transform (transform : ℕ → ℕ → ℚ) (weights : ℕ → ℚ)
    (n_evts b : ℕ) : ℚ :=
  ∑ e in Finset.range n_evts, weights e * transform e b

/-- Contribution of a live in-range thread, phrased through the two
`GetBin` results. -/
lemma threadContrib_eq {n_evts n_bins_x n_bins_y : ℕ}
    {X Y W bin_edges_x bin_edges_y : ℕ → ℚ} {idx bx b_y : ℕ}
    (hidx : idx < n_evts)
    (hin : eventInRange n_bins_x n_bins_y X Y bin_edges_x bin_edges_y idx)
    (hgx : GetBin (X idx) n_bins_x bin_edges_x = some (bx : ℤ))
    (hgy : GetBin (Y idx) n_bins_y bin_edges_y = some (b_y : ℤ)) (b : ℕ) :
    threadContrib n_evts n_bins_x n_bins_y X Y W bin_edges_x bin_edges_y idx (b : ℤ)
      = if b = b_y + bx * n_bins_y then W idx else 0 := by
  obtain ⟨hx1, hx2, hy1, hy2⟩ := hin
  unfold threadContrib hist2DthreadOp
  rw [if_pos hidx, if_pos ⟨hx1, hx2, hy1, hy2⟩, hgx, hgy]
  show (if ((b_y : ℤ) + (bx : ℤ) * (n_bins_y : ℤ)) = (b : ℤ) then W idx else 0) = _
  have hkey : (((b_y : ℤ) + (bx : ℤ) * (n_bins_y : ℤ)) = (b : ℤ))
      ↔ (b = b_y + bx * n_bins_y) := by
    rw [show ((b_y : ℤ) + (bx : ℤ) * (n_bins_y : ℤ))
        = ((b_y + bx * n_bins_y : ℕ) : ℤ) by push_cast; ring]
    rw [Nat.cast_inj]
    exact eq_comm
  by_cases hbb : b = b_y + bx * n_bins_y
  · rw [if_pos (hkey.mpr hbb), if_pos hbb]
  · rw [if_neg (fun hc => hbb (hkey.mp hc)), if_neg hbb]

/-- Out-of-range events have an all-zero transform row. -/
lemma build_transform_out_of_range {n_bins_x n_bins_y : ℕ}
    {X Y bin_edges_x bin_edges_y : ℕ → ℚ} {e : ℕ}
    (hnot : ¬ eventInRange n_bins_x n_bins_y X Y bin_edges_x bin_edges_y e)
    (b : ℕ) :
    build_transform n_bins_x n_bins_y X Y bin_edges_x bin_edges_y e b = 0 := by
  unfold build_transform
  rcases Classical.em (bin_edges_x 0 ≤ X e ∧ X e ≤ bin_edges_x n_bins_x) with hx | hx
  · have hy : ¬(bin_edges_y 0 ≤ Y e ∧ Y e ≤ bin_edges_y n_bins_y) :=
      fun hy => hnot ⟨hx.1, hx.2, hy.1, hy.2⟩
    have hsy : specLocate (Y e) n_bins_y bin_edges_y = none := by
      unfold specLocate
      rw [if_pos]
      rcases not_and_or.mp hy with h | h
      · exact Or.inl (not_le.mp h)
      · exact Or.inr (not_le.mp h)
    rw [hsy]
    cases specLocate (X e) n_bins_x bin_edges_x <;> rfl
  · have hsx : specLocate (X e) n_bins_x bin_edges_x = none := by
      unfold specLocate
      rw [if_pos]
      rcases not_and_or.mp hx with h | h
      · exact Or.inl (not_le.mp h)
      · exact Or.inr (not_le.mp h)
    rw [hsx]

/-- Out-of-range events contribute nothing in the kernel either. -/
lemma threadContrib_out_of_range {n_evts n_bins_x n_bins_y : ℕ}
    {X Y W bin_edges_x bin_edges_y : ℕ → ℚ} {idx : ℕ}
    (hnot : ¬ eventInRange n_bins_x n_bins_y X Y bin_edges_x bin_edges_y idx)
    (b : ℤ) :
    threadContrib n_evts n_bins_x n_bins_y X Y W bin_edges_x bin_edges_y idx b = 0 := by
  unfold threadContrib hist2DthreadOp
  unfold eventInRange at hnot
  by_cases hidx : idx < n_evts
  · rw [if_pos hidx, if_neg hnot]
  · rw [if_neg hidx]

end Pisa

namespace Pisa

/-- C1: for a fixed sample and binning, applying the cached one-hot
transform to any weight vector — `apply_transform (build_transform …) W`
— yields, bin by bin, the same histogram as a direct
`accumulate(sample, weights, binning)` kernel launch; over `ℚ` the
"floating-point tolerance" equality is exact. -/
theorem transform_equivalence {n_evts n_bins_x n_bins_y : ℕ}
    (X Y W bin_edges_x bin_edges_y : ℕ → ℚ)
    (hmx : StrictEdges n_bins_x bin_edges_x)
    (hmy : StrictEdges n_bins_y bin_edges_y)
    (hnx : 1 ≤ n_bins_x) (hny : 1 ≤ n_bins_y) :
    ∀ b : ℕ,
      apply_transform (build_transform n_bins_x n_bins_y X Y bin_edges_x bin_edges_y)
          W n_evts b
        = accumulate n_evts n_bins_x n_bins_y X Y W bin_edges_x bin_edges_y (b : ℤ) := by
  intro b
  rw [accumulate_eq_sum_events]
  unfold apply_transform
  refine Finset.sum_congr rfl fun e he => ?_
  have hidx : e < n_evts := Finset.mem_range.mp he
  by_cases hin : eventInRange n_bins_x n_bins_y X Y bin_edges_x bin_edges_y e
  · obtain ⟨hx1, hx2, hy1, hy2⟩ := hin
    obtain ⟨bx, hgx, hsx, hbx⟩ := specLocate_eq_getBin hmx hnx hx1 hx2
    obtain ⟨b_y, hgy, hsy, hby⟩ := specLocate_eq_getBin hmy hny hy1 hy2
    rw [threadContrib_eq hidx ⟨hx1, hx2, hy1, hy2⟩ hgx hgy b]
    unfold build_transform
    rw [hsx, hsy]
    show W e * (if b = b_y + bx * n_bins_y then 1 else 0) = _
    by_cases hbb : b = b_y + bx * n_bins_y
    · rw [if_pos hbb, if_pos hbb, mul_one]
    · rw [if_neg hbb, if_neg hbb, mul_zero]
  · rw [threadContrib_out_of_range hin, build_transform_out_of_range hin, mul_zero]

/-- Witness for C1 on a 3x3 binning with unit edges and two events. -/
theorem transform_equivalence_witness :
    StrictEdges 3 exEdges ∧ (1 : ℕ) ≤ 3 ∧
      ∀ b : ℕ,
        apply_transform (build_transform 3 3 exEdges exEdges exEdges exEdges)
            exEdges 2 b
          = accumulate 2 3 3 exEdges exEdges exEdges exEdges exEdges (b : ℤ) :=
  ⟨by decide, by decide,
   transform_equivalence exEdges exEdges exEdges exEdges exEdges
     (by decide) (by decide) (by decide) (by decide)⟩

/-- A multi-dimensional binning as the transform stage sees it: an
ordered list of named dimensions with their edge sequences.  Modelled
from the spec: `pisa.core.binning.MultiDimBinning` is not under src/; the
spec describes an ordered sequence of named Dimensions whose `+`
concatenates dimension lists and whose `names` lists dimension names in
order. -/
structure MultiDimBinning where
  dims : List (String × List ℚ)

/-- Dimension names, in order. -/
def MultiDimBinning.names (bng : MultiDimBinning) : List String :=
  bng.dims.map Prod.fst

/-- Modelled from the spec: binning concatenation, the
`self.calc_mode + self.apply_mode` of `hist.setup_function`. -/
def MultiDimBinning.concat (a b : MultiDimBinning) : MultiDimBinning :=
  ⟨a.dims ++ b.dims⟩

/-- The build-time combination step of `hist.setup_function`
(pisa/stages/utils/hist.py, lines 38-43): assert that the calc and apply
binnings share no dimension name
(`len(set(calc.names) & set(apply.names)) == 0`), then form the combined
transform binning by concatenation.  A failed assert is a fatal setup
error. -/
def setup_function (calc_mode apply_mode : MultiDimBinning) :
    Except String MultiDimBinning :=
  if calc_mode.names.any (fun nm => apply_mode.names.contains nm) then
    Except.error "AssertionError: calc and apply binnings share dimension names"
  else
    Except.ok (calc_mode.concat apply_mode)

/-- A stage run: the one-time `setup_function`, then the per-iteration
apply step on the transform binning setup produced.  When setup fails,
the run is the setup error and the apply step is never consulted. -/
def runStage (calc_mode apply_mode : MultiDimBinning)
    (applyStep : MultiDimBinning → ℤ → ℚ) : Except String (ℤ → ℚ) :=
  match setup_function calc_mode apply_mode with
  | Except.error e => Except.error e
  | Except.ok tb => Except.ok (applyStep tb)

end Pisa

namespace Pisa

/-- C7: building the combined transform binning fails fatally at setup
time exactly when the calc and apply binnings share a dimension name —
in that case every stage run is the setup error, whatever the
per-iteration apply step would compute — and with disjoint names setup
succeeds with the concatenation of the two dimension lists. -/
theorem setup_requires_disjoint_names (calc_mode apply_mode : MultiDimBinning) :
    ((∃ nm, nm ∈ calc_mode.names ∧ nm ∈ apply_mode.names) ↔
      ∀ applyStep, runStage calc_mode apply_mode applyStep
        = Except.error "AssertionError: calc and apply binnings share dimension names") ∧
    ((¬ ∃ nm, nm ∈ calc_mode.names ∧ nm ∈ apply_mode.names) →
      setup_function calc_mode apply_mode
        = Except.ok ⟨calc_mode.dims ++ apply_mode.dims⟩) := by
  have hshare : (calc_mode.names.any fun nm => apply_mode.names.contains nm) = true
      ↔ ∃ nm, nm ∈ calc_mode.names ∧ nm ∈ apply_mode.names := by
    simp [List.any_eq_true, List.contains_iff_exists_mem_beq, beq_iff_eq]
  constructor
  · constructor
    · intro hex applyStep
      unfold runStage setup_function
      rw [if_pos (hshare.mpr hex)]
    · intro hall
      by_contra hnex
      have h := hall fun _ _ => 0
      unfold runStage setup_function at h
      rw [if_neg (fun hc => hnex (hshare.mp hc))] at h
      exact Except.noConfusion h
  · intro hnex
    unfold setup_function
    rw [if_neg (fun hc => hnex (hshare.mp hc))]
    rfl

/-- Witness for C7: an energy/coszen apply binning combined with a
disjoint calc binning sets up to the concatenation, and C7 applied to a
shared-name pair yields the fatal setup error. -/
theorem setup_requires_disjoint_names_witness :
    ((∃ nm, nm ∈ (MultiDimBinning.mk [("E", [0, 1])]).names ∧
        nm ∈ (MultiDimBinning.mk [("E", [2, 3])]).names) ∧
      ∀ applyStep,
        runStage (MultiDimBinning.mk [("E", [0, 1])])
            (MultiDimBinning.mk [("E", [2, 3])]) applyStep
          = Except.error "AssertionError: calc and apply binnings share dimension names") ∧
    ((¬ ∃ nm, nm ∈ (MultiDimBinning.mk [("E", [0, 1])]).names ∧
        nm ∈ (MultiDimBinning.mk [("cz", [2, 3])]).names) ∧
      setup_function (MultiDimBinning.mk [("E", [0, 1])])
          (MultiDimBinning.mk [("cz", [2, 3])])
        = Except.ok ⟨[("E", [0, 1]), ("cz", [2, 3])]⟩) := by
  constructor
  · have hex : ∃ nm, nm ∈ (MultiDimBinning.mk [("E", [0, 1])]).names ∧
        nm ∈ (MultiDimBinning.mk [("E", [2, 3])]).names :=
      ⟨"E", by simp [MultiDimBinning.names], by simp [MultiDimBinning.names]⟩
    exact ⟨hex,
      (setup_requires_disjoint_names (MultiDimBinning.mk [("E", [0, 1])])
        (MultiDimBinning.mk [("E", [2, 3])])).1.mp hex⟩
  · have hnex : ¬ ∃ nm, nm ∈ (MultiDimBinning.mk [("E", [0, 1])]).names ∧
        nm ∈ (MultiDimBinning.mk [("cz", [2, 3])]).names := by
      rintro ⟨nm, h1, h2⟩
      simp [MultiDimBinning.names] at h1 h2
      rw [h1] at h2
      exact absurd h2 (by decide)
    exact ⟨hnex,
      (setup_requires_disjoint_names (MultiDimBinning.mk [("E", [0, 1])])
        (MultiDimBinning.mk [("cz", [2, 3])])).2 hnex⟩

/-- Elementwise square, the `np.square(weights)` of `hist.apply_function`. -/
def np_square {n : ℕ} (v : Fin n → ℚ) : Fin n → ℚ :=
  fun i => v i * v i

/-- The numpy contraction `v @ M` of a length-`n` vector with an
`n × m` matrix: a sum over the shared (event) axis per output bin. -/
def np_matmul_vec {n m : ℕ} (v : Fin n → ℚ) (M : Matrix (Fin n) (Fin m) ℚ) :
    Fin m → ℚ :=
  fun j => ∑ i, v i * M i j

/-- The per-container computation of `hist.apply_function`
(pisa/stages/utils/hist.py, lines 86-99), given the reshaped transform:
the histogram `weights @ transform` always, and additionally
`np.square(weights) @ transform` when the stage's error method is
`sumw2`. -/
def apply_function {n m : ℕ} (weights : Fin n → ℚ)
    (transform : Matrix (Fin n) (Fin m) ℚ) (sumw2 : Bool) :
    (Fin m → ℚ) × Option (Fin m → ℚ) :=
  (np_matmul_vec weights transform,
   if sumw2 then some (np_matmul_vec (np_square weights) transform) else none)

/-- C8: `apply_function` computes the histogram as the vector-matrix
product `weights ·ᵥ transform`, and when `sumw2` error propagation is
requested it additionally computes the elementwise-squared weights
contracted with the same transform — the per-bin sum of squared weights. -/
theorem apply_function_is_vecMul {n m : ℕ} (weights : Fin n → ℚ)
    (transform : Matrix (Fin n) (Fin m) ℚ) :
    apply_function weights transform false
        = (Matrix.vecMul weights transform, none) ∧
      apply_function weights transform true
        = (Matrix.vecMul weights transform,
           some (Matrix.vecMul (fun i => weights i ^ 2) transform)) := by
  have hvec : np_matmul_vec weights transform = Matrix.vecMul weights transform := by
    funext j
    simp [np_matmul_vec, Matrix.vecMul, Matrix.dotProduct]
  have hsq : np_matmul_vec (np_square weights) transform
      = Matrix.vecMul (fun i => weights i ^ 2) transform := by
    funext j
    simp [np_matmul_vec, np_square, Matrix.vecMul, Matrix.dotProduct, sq]
  constructor
  · unfold apply_function
    rw [hvec]
    rfl
  · unfold apply_function
    rw [hvec, hsq]
    rfl

end Pisa

